import Mathlib

/-!
Shallow embedding of the core of `webpack-dll-bundles-plugin`
(`src/DllBundlesControl.ts`): the package resolver (`getPackageJson`),
the metadata collector (`getMetadata`), the diff engine (`analyzeState`),
the state store (`saveBundleState`, modelled by `buildBundleState`) and
the rebuild decision (`checkBundles`).

Filesystem and module resolution are modelled by explicit environments:
`env : String → ResolveOutcome` maps a package path to the outcome of
`require.resolve` + manifest loading, and `fsExists : String → Bool`
models `fs.existsSync`.  The persisted bundle state (a JSON object keyed
by package name, with insertion order preserved) is modelled as an
association list `BundleState` whose operations mirror JavaScript object
semantics: `stateLookup` (property read), `stateSet` (assignment,
updating in place), `stateDel` (the `delete` operator).
-/

namespace DllBundles

/-- One value of the persisted bundle-state object
(`{ bundle: string; version: string }` in `DllBundlesControl.ts`).
`version` is an `Option` because a JavaScript property read of an
unset field yields `undefined`. -/
structure StateEntry where
  bundle : String
  version : Option String
deriving DecidableEq, Repr

/-- The persisted state object (`BundleState` in the source): a JSON
object from package name to entry, with insertion order preserved
(JavaScript objects enumerate string keys in insertion order). -/
abbrev BundleState := List (String × StateEntry)

/-- A configured package reference: either a bare string (name = path)
or a `DllPackageConfig` `{name, path}` object. -/
inductive PkgRef where
  | str (s : String)
  | cfg (name path : String)
deriving DecidableEq, Repr

/-- A declared bundle (`DllBundleConfig`): a name plus an ordered list
of package references. -/
structure DllBundleConfig where
  name : String
  packages : List PkgRef
deriving DecidableEq, Repr

/-- The distinct failure shapes produced during package resolution:
a `require.resolve`/`find-root` failure, a manifest load/shape failure
(including the `Invalid package.json` throw), and the name-mismatch
throw of `getMetadata`. -/
inductive PkgFailure where
  | resolution (msg : String)
  | manifest (msg : String)
  | nameMismatch (expected found : String)
deriving DecidableEq, Repr

/-- The `PackageInfo` class of the source.  `version` and `error` start
out unset (`none`) and are filled in by resolution. -/
structure PackageInfo where
  bundle : String
  name : String
  path : String
  version : Option String := none
  error : Option PkgFailure := none
deriving DecidableEq, Repr

/-- The `PackageInfo` constructor: a bare string sets `name = path`,
an object copies both fields. -/
def mkPackageInfo (bundle : String) (pkg : PkgRef) : PackageInfo :=
  match pkg with
  | .str s => { bundle := bundle, name := s, path := s }
  | .cfg n p => { bundle := bundle, name := n, path := p }

/-- JavaScript property read `state[key]` (first entry wins; keys are
unique in states built by the code). -/
def stateLookup : BundleState → String → Option StateEntry
  | [], _ => none
  | (k, v) :: rest, key => if k = key then some v else stateLookup rest key

/-- JavaScript assignment `state[key] = v`: updates an existing key in
place, otherwise appends the key at the end. -/
def stateSet : BundleState → String → StateEntry → BundleState
  | [], key, v => [(key, v)]
  | (k, v') :: rest, key, v =>
    if k = key then (k, v) :: rest else (k, v') :: stateSet rest key v

/-- JavaScript `delete state[key]`: removes the (unique) entry. -/
def stateDel : BundleState → String → BundleState
  | [], _ => []
  | (k, v) :: rest, key => if k = key then rest else (k, v) :: stateDel rest key

/-- The keys of a state object, in enumeration order (`Object.keys`). -/
def stateKeys (s : BundleState) : List String := s.map Prod.fst

/-- What the ambient module system yields for a package path:
`resolveFail` models a throw from `require.resolve`/`find-root`
(location unresolvable), `manifestFail` a throw while loading the
`package.json` (file missing or unparsable), and `manifest` a parsed
JSON object whose `name`/`version` fields may each be absent. -/
inductive ResolveOutcome where
  | resolveFail (msg : String)
  | manifestFail (msg : String)
  | manifest (name version : Option String)
deriving DecidableEq, Repr

/-- JavaScript truthiness of a string-or-undefined field: `undefined`
and the empty string are falsy. -/
def truthy : Option String → Bool
  | none => false
  | some s => if s = "" then false else true

/-- `getPackageJson` of the source: resolve the path, load the
manifest, and throw `Invalid package.json` unless both the `name` and
the `version` field are truthy (`if (!pkg.name || !pkg.version)`). -/
def getPackageJson (env : String → ResolveOutcome) (uri : String) :
    Except PkgFailure (String × String) :=
  match env uri with
  | .resolveFail msg => .error (.resolution msg)
  | .manifestFail msg => .error (.manifest msg)
  | .manifest n v =>
    if truthy n && truthy v then .ok (n.getD "", v.getD "")
    else .error (.manifest "Invalid package.json")

/-- One resolution step of `getMetadata`: on a successful manifest load
the version is assigned first, and only then the declared name is
compared against the manifest name (so a mismatch leaves the version
assigned); any failure is captured into `error`. -/
def resolvePackage (env : String → ResolveOutcome) (p : PackageInfo) : PackageInfo :=
  match getPackageJson env p.path with
  | .error e => { p with error := some e }
  | .ok (n, v) =>
    if p.name = n then { p with version := some v }
    else { p with version := some v, error := some (.nameMismatch p.name n) }

/-- `getMetadata`: flatten all bundles to fresh `PackageInfo`s (one per
reference, in declaration order) and resolve each one; every failure is
contained in its own descriptor (`Promise.all` joins them all). -/
def getMetadata (env : String → ResolveOutcome) (bundles : List DllBundleConfig) :
    List PackageInfo :=
  ((bundles.map (fun b => b.packages.map (mkPackageInfo b.name))).flatten).map
    (resolvePackage env)

/-- The `AnalyzedState` record of the source: the five classification
lists of the diff engine. -/
structure AnalyzedState where
  current : List PackageInfo
  changed : List PackageInfo
  added : List PackageInfo
  removed : List PackageInfo
  error : List PackageInfo
deriving DecidableEq, Repr

/-- The diff engine's initial result record. -/
def emptyAnalyzed : AnalyzedState := ⟨[], [], [], [], []⟩

/-- The diff engine's loop accumulator: the partial result, the working
copy of the persisted state, and the `pkgCache.hist` list of deleted
names. -/
abbrev DiffAcc := AnalyzedState × BundleState × List String

/-- One iteration of the diff engine's `packages.forEach` loop:
an errored descriptor is recorded and its name deleted from the working
state; a descriptor found in the working state is classified `current`
or `changed` by version equality and its name deleted; otherwise the
descriptor is classified `added` unless its name is in the deletion
history (`pkgCache.deleted`). -/
def analyzeStep (acc : DiffAcc) (p : PackageInfo) : DiffAcc :=
  match acc with
  | (res, bs, hist) =>
    if p.error.isSome then
      ({ res with error := res.error ++ [p] }, stateDel bs p.name, hist ++ [p.name])
    else
      match stateLookup bs p.name with
      | some entry =>
        if entry.version = p.version then
          ({ res with current := res.current ++ [p] }, stateDel bs p.name,
            hist ++ [p.name])
        else
          ({ res with changed := res.changed ++ [p] }, stateDel bs p.name,
            hist ++ [p.name])
      | none =>
        if p.name ∈ hist then (res, bs, hist)
        else ({ res with added := res.added ++ [p] }, bs, hist)

/-- `analyzeState`, given the already-collected metadata and the loaded
persisted state: run the loop over all descriptors, then synthesize a
`removed` record (`new PackageInfo(bundleState[k].bundle, k)`) for every
entry left in the working state. -/
def analyzeState (packages : List PackageInfo) (state : BundleState) : AnalyzedState :=
  match packages.foldl analyzeStep (emptyAnalyzed, state, []) with
  | (res, bs, _) =>
    { res with removed := bs.map (fun kv => mkPackageInfo kv.2.bundle (.str kv.1)) }

/-- `bundleLooksValid` of the source (despite its name it returns `true`
when the bundle is INVALID): true iff either artifact file
(`<dllDir>/<name>.dll.js` or `<dllDir>/<name>-manifest.json`) is
missing. -/
def bundleLooksValid (fsExists : String → Bool) (dllDir name : String) : Bool :=
  !(fsExists (dllDir ++ "/" ++ name ++ ".dll.js"))
    || !(fsExists (dllDir ++ "/" ++ name ++ "-manifest.json"))

/-- The initial `bundleNames` list of `checkBundles`: the declared
bundle names whose artifact files are incomplete on disk, in
declaration order. -/
def invalidBundleNames (fsExists : String → Bool) (dllDir : String)
    (bundles : List DllBundleConfig) : List String :=
  (bundles.map (fun b => b.name)).filter (fun n => bundleLooksValid fsExists dllDir n)

/-- The aggregation loop of `checkBundles`:
`forEach(p => bundleNames.indexOf(p.bundle) === -1 && bundleNames.push(p.bundle))`. -/
def pushFold (init : List String) (L : List PackageInfo) : List String :=
  L.foldl (fun ns p => if p.bundle ∈ ns then ns else ns ++ [p.bundle]) init

/-- `this.bundles.filter(bnd => bnd.name === bundleName)[0]`: the first
declared bundle with the given name; `none` models the `undefined` that
index `[0]` of an empty filter result yields. -/
def bundleByName (bundles : List DllBundleConfig) (n : String) : Option DllBundleConfig :=
  (bundles.filter (fun b => b.name == n)).head?

/-- The message of the error thrown by `checkBundles` in strict mode. -/
def checkErrorMsg : String := "DllBundlesPlugin: Some packages have errors."

/-- `checkBundles`: analyze the state, start from the bundles with
missing artifacts, throw a fixed error when some package errored and
`ignorePackageError` is off, otherwise aggregate the bundles of all
added/changed/removed/errored descriptors and map each collected name
to the first declared bundle carrying it (`undefined` when none does). -/
def checkBundles (env : String → ResolveOutcome) (fsExists : String → Bool)
    (dllDir : String) (ignorePackageError : Bool)
    (bundles : List DllBundleConfig) (state : BundleState) :
    Except String (List (Option DllBundleConfig)) :=
  if (analyzeState (getMetadata env bundles) state).error.length > 0
      && !ignorePackageError then
    .error checkErrorMsg
  else
    .ok ((pushFold (invalidBundleNames fsExists dllDir bundles)
        ((analyzeState (getMetadata env bundles) state).added
          ++ (analyzeState (getMetadata env bundles) state).changed
          ++ (analyzeState (getMetadata env bundles) state).removed
          ++ (analyzeState (getMetadata env bundles) state).error)).map
      (bundleByName bundles))

/-- The packages whose errors `checkBundles` reports (`console.error`)
before deciding whether to throw: the `error` list of the analysis. -/
def reportedPackageErrors (env : String → ResolveOutcome)
    (bundles : List DllBundleConfig) (state : BundleState) : List PackageInfo :=
  (analyzeState (getMetadata env bundles) state).error

/-- The object `saveBundleState` serialises and writes as a full-file
overwrite: drop every errored descriptor, then
`reduce((state, pkg) => { state[pkg.name] = {bundle, version}; return state }, {})`. -/
def buildBundleState (metadata : List PackageInfo) : BundleState :=
  (metadata.filter (fun m => !m.error.isSome)).foldl
    (fun st pkg => stateSet st pkg.name ⟨pkg.bundle, pkg.version⟩) []

/-- Invariant of the diff engine's loop accumulator, used to establish
which classification lists can share a package name: every name already
classified current/changed is recorded in the deletion history; names in
the history no longer occur in the working state; names classified added
are absent from the working state and from current/changed; the
current/changed names are pairwise distinct; the working state's keys are
pairwise distinct. -/
def DiffInv (acc : DiffAcc) : Prop :=
  (∀ n ∈ (acc.1.current ++ acc.1.changed).map PackageInfo.name, n ∈ acc.2.2)
  ∧ (∀ n ∈ acc.2.2, stateLookup acc.2.1 n = none)
  ∧ (∀ n ∈ acc.1.added.map PackageInfo.name, stateLookup acc.2.1 n = none)
  ∧ ((acc.1.current ++ acc.1.changed).map PackageInfo.name).Nodup
  ∧ (∀ n ∈ acc.1.added.map PackageInfo.name,
      n ∉ (acc.1.current ++ acc.1.changed).map PackageInfo.name)
  ∧ (stateKeys acc.2.1).Nodup

/-! ### Concrete configurations used by witnesses and counterexamples -/

/-- A module environment in which every path resolves to a manifest
declaring the name `other` at version `2.0.0`. -/
def envMismatch : String → ResolveOutcome := fun _ =>
  .manifest (some "other") (some "2.0.0")

/-- One bundle `b` declaring the package name `want` at path `p`. -/
def bundlesMismatch : List DllBundleConfig := [⟨"b", [.cfg "want" "p"]⟩]

/-- The descriptor that `getMetadata envMismatch bundlesMismatch`
produces: the manifest loaded (version assigned) and then the name
check failed, leaving both fields set. -/
def mismatchDescriptor : PackageInfo :=
  { bundle := "b", name := "want", path := "p", version := some "2.0.0",
    error := some (.nameMismatch "want" "other") }

/-- A module environment whose manifests parse and carry a version but
no name field. -/
def envVersionOnly : String → ResolveOutcome := fun _ =>
  .manifest none (some "1.0.0")

/-- A module environment in which no path resolves at all. -/
def envMissing : String → ResolveOutcome := fun _ =>
  .resolveFail "Cannot find module"

/-- One bundle `vendor` containing the single bare reference `pkgX`. -/
def bundlesPkgX : List DllBundleConfig := [⟨"vendor", [.str "pkgX"]⟩]

/-- A filesystem on which every artifact file exists. -/
def fsAll : String → Bool := fun _ => true

/-- An environment resolving only the path `pa`, to the manifest
`{name: pa, version: 1.0}`. -/
def envGood : String → ResolveOutcome := fun p =>
  if p = "pa" then .manifest (some "pa") (some "1.0") else .resolveFail "no"

/-- Two declared packages under one bundle sharing the declared name
`pkgC` at two different paths, both resolving to that name. -/
def bundlesDup : List DllBundleConfig :=
  [⟨"vendor", [.cfg "pkgC" "p1", .cfg "pkgC" "p2"]⟩]

/-- An environment resolving both `p1` and `p2` to the manifest
`{name: pkgC, version: 1.0.0}`. -/
def envDup : String → ResolveOutcome := fun p =>
  if p = "p1" ∨ p = "p2" then .manifest (some "pkgC") (some "1.0.0")
  else .resolveFail "no"

/-- A persisted state holding `pkgC` at version `1.0.0` under bundle
`vendor`. -/
def statePkgC : BundleState := [("pkgC", ⟨"vendor", some "1.0.0"⟩)]

/-- Declaration order: `vendor1` (one package `pa`) before `vendor2`
(empty). -/
def bundlesTwo : List DllBundleConfig :=
  [⟨"vendor1", [.str "pa"]⟩, ⟨"vendor2", []⟩]

/-- A filesystem missing exactly the two artifact files of `vendor2`
under the state directory `d`. -/
def fsNoVendor2 : String → Bool := fun f =>
  if f = "d/vendor2.dll.js" ∨ f = "d/vendor2-manifest.json" then false else true

/-- A persisted state recording `pa` at the outdated version `0.9`. -/
def stateOld : BundleState := [("pa", ⟨"vendor1", some "0.9"⟩)]

/-- One bundle `vendor1` containing the single bare reference `pa`. -/
def bundlesPa : List DllBundleConfig := [⟨"vendor1", [.str "pa"]⟩]

/-- A persisted state with the up-to-date `pa` plus a leftover entry
`gone` recorded under a bundle name that is no longer declared. -/
def stateStale : BundleState :=
  [("pa", ⟨"vendor1", some "1.0"⟩), ("gone", ⟨"oldBundle", some "2.0"⟩)]

/-- Metadata mixing a resolved and an errored descriptor. -/
def sampleMetadata : List PackageInfo :=
  [{ bundle := "b1", name := "ok", path := "ok", version := some "1.0.0" },
   { bundle := "b1", name := "bad", path := "bad",
     error := some (.resolution "nope") }]

/-- First of two non-errored descriptors sharing the name `a`. -/
def dupFirst : PackageInfo :=
  { bundle := "b1", name := "a", path := "x", version := some "1" }

/-- Second of two non-errored descriptors sharing the name `a`. -/
def dupSecond : PackageInfo :=
  { bundle := "b2", name := "a", path := "y", version := some "2" }

/-! ### Basic lemmas about the JavaScript-object model -/

theorem stateLookup_eq_none_iff (s : BundleState) (n : String) :
    stateLookup s n = none ↔ n ∉ stateKeys s := by
  induction s with
  | nil => simp [stateLookup, stateKeys]
  | cons kv rest ih =>
    obtain ⟨k, v⟩ := kv
    by_cases h : k = n
    · subst h
      simp [stateLookup, stateKeys]
    · simp [stateLookup, stateKeys, h, ih, Ne.symm h]

theorem stateLookup_isSome_iff (s : BundleState) (n : String) :
    (stateLookup s n).isSome ↔ n ∈ stateKeys s := by
  cases hlk : stateLookup s n with
  | none => simp [(stateLookup_eq_none_iff s n).mp hlk]
  | some v =>
    simp only [Option.isSome_some, true_iff]
    by_contra hm
    have hnone := (stateLookup_eq_none_iff s n).mpr hm
    rw [hlk] at hnone
    exact Option.noConfusion hnone

theorem stateDel_sublist (s : BundleState) (k : String) :
    (stateDel s k).Sublist s := by
  induction s with
  | nil => simp [stateDel]
  | cons kv rest ih =>
    obtain ⟨k', v⟩ := kv
    by_cases h : k' = k
    · rw [show stateDel ((k', v) :: rest) k = rest from by simp [stateDel, h]]
      exact List.sublist_cons_self (k', v) rest
    · rw [show stateDel ((k', v) :: rest) k = (k', v) :: stateDel rest k from by
        simp [stateDel, h]]
      exact ih.cons₂ (k', v)

theorem stateKeys_stateDel_sublist (s : BundleState) (k : String) :
    (stateKeys (stateDel s k)).Sublist (stateKeys s) :=
  (stateDel_sublist s k).map Prod.fst

theorem stateLookup_stateDel_none (s : BundleState) (k n : String)
    (h : stateLookup s n = none) : stateLookup (stateDel s k) n = none := by
  rw [stateLookup_eq_none_iff] at h ⊢
  exact fun hm => h ((stateKeys_stateDel_sublist s k).mem hm)

theorem stateLookup_stateDel_ne (s : BundleState) (k n : String) (h : n ≠ k) :
    stateLookup (stateDel s k) n = stateLookup s n := by
  induction s with
  | nil => simp [stateDel]
  | cons kv rest ih =>
    obtain ⟨k', v⟩ := kv
    by_cases hk : k' = k
    · subst hk
      simp [stateDel, stateLookup, Ne.symm h]
    · by_cases hn : k' = n
      · subst hn
        simp [stateDel, hk, stateLookup]
      · simp [stateDel, hk, stateLookup, hn, ih]

theorem stateLookup_stateDel_self (s : BundleState) (k : String)
    (h : (stateKeys s).Nodup) : stateLookup (stateDel s k) k = none := by
  induction s with
  | nil => simp [stateDel, stateLookup]
  | cons kv rest ih =>
    obtain ⟨k', v⟩ := kv
    simp only [stateKeys, List.map_cons, List.nodup_cons] at h
    by_cases hk : k' = k
    · subst hk
      rw [show stateDel ((k', v) :: rest) k' = rest from by simp [stateDel]]
      rw [stateLookup_eq_none_iff]
      exact h.1
    · rw [show stateDel ((k', v) :: rest) k = (k', v) :: stateDel rest k from by
        simp [stateDel, hk]]
      rw [show stateLookup ((k', v) :: stateDel rest k) k
          = stateLookup (stateDel rest k) k from by simp [stateLookup, hk]]
      exact ih h.2

theorem mem_stateDel_of_ne (s : BundleState) (k : String) (kv : String × StateEntry)
    (h1 : kv ∈ s) (h2 : kv.1 ≠ k) : kv ∈ stateDel s k := by
  induction s with
  | nil => simp at h1
  | cons kv' rest ih =>
    obtain ⟨k', v⟩ := kv'
    by_cases hk : k' = k
    · subst hk
      rcases List.mem_cons.mp h1 with h | h
      · exact absurd (congrArg Prod.fst h) h2
      · simpa [stateDel] using h
    · rcases List.mem_cons.mp h1 with h | h
      · simp [stateDel, hk, h]
      · simp [stateDel, hk, ih h]

theorem stateKeys_stateSet (s : BundleState) (k : String) (v : StateEntry) :
    stateKeys (stateSet s k v) =
      if k ∈ stateKeys s then stateKeys s else stateKeys s ++ [k] := by
  induction s with
  | nil => simp [stateSet, stateKeys]
  | cons kv rest ih =>
    obtain ⟨k', v'⟩ := kv
    by_cases hk : k' = k
    · subst hk
      simp [stateSet, stateKeys]
    · rw [show stateSet ((k', v') :: rest) k v = (k', v') :: stateSet rest k v from by
        simp [stateSet, hk]]
      rw [show stateKeys ((k', v') :: stateSet rest k v)
          = k' :: stateKeys (stateSet rest k v) from rfl]
      rw [ih]
      rw [show stateKeys ((k', v') :: rest) = k' :: stateKeys rest from rfl]
      by_cases hm : k ∈ stateKeys rest
      · rw [if_pos hm, if_pos (List.mem_cons_of_mem _ hm)]
      · rw [if_neg hm, if_neg (by
          intro hc
          rcases List.mem_cons.mp hc with hc | hc
          · exact hk hc.symm
          · exact hm hc)]
        rfl

theorem stateKeys_stateSet_nodup (s : BundleState) (k : String) (v : StateEntry)
    (h : (stateKeys s).Nodup) : (stateKeys (stateSet s k v)).Nodup := by
  rw [stateKeys_stateSet]
  by_cases hm : k ∈ stateKeys s
  · simpa [hm] using h
  · rw [if_neg hm]
    exact h.append (List.nodup_singleton k)
      (fun a ha hb => hm ((List.mem_singleton.mp hb) ▸ ha))

theorem stateLookup_stateSet_self (s : BundleState) (k : String) (v : StateEntry) :
    stateLookup (stateSet s k v) k = some v := by
  induction s with
  | nil => simp [stateSet, stateLookup]
  | cons kv rest ih =>
    obtain ⟨k', v'⟩ := kv
    by_cases hk : k' = k
    · simp [stateSet, hk, stateLookup]
    · simp [stateSet, hk, stateLookup, ih]

theorem stateLookup_stateSet_ne (s : BundleState) (k n : String) (v : StateEntry)
    (h : n ≠ k) : stateLookup (stateSet s k v) n = stateLookup s n := by
  induction s with
  | nil => simp [stateSet, stateLookup, Ne.symm h]
  | cons kv rest ih =>
    obtain ⟨k', v'⟩ := kv
    by_cases hk : k' = k
    · subst hk
      simp [stateSet, stateLookup, Ne.symm h]
    · by_cases hn : k' = n
      · subst hn
        simp [stateSet, hk, stateLookup]
      · simp [stateSet, hk, stateLookup, hn, ih]

theorem mem_stateSet (s : BundleState) (k : String) (v : StateEntry)
    (kv : String × StateEntry) (h : kv ∈ stateSet s k v) :
    kv = (k, v) ∨ kv ∈ s := by
  induction s with
  | nil => simpa [stateSet] using h
  | cons kv' rest ih =>
    obtain ⟨k', v'⟩ := kv'
    by_cases hk : k' = k
    · subst hk
      rcases List.mem_cons.mp (by simpa [stateSet] using h) with h | h
      · exact Or.inl h
      · exact Or.inr (List.mem_cons_of_mem _ h)
    · rcases List.mem_cons.mp (by simpa [stateSet, hk] using h) with h | h
      · exact Or.inr (by simp [h])
      · rcases ih h with h | h
        · exact Or.inl h
        · exact Or.inr (List.mem_cons_of_mem _ h)

/-! ### Lemmas about the rebuild-list aggregation of `checkBundles` -/

theorem pushFold_exists_append (L : List PackageInfo) :
    ∀ init : List String, ∃ t, pushFold init L = init ++ t ∧
      ∀ n ∈ t, ∃ p ∈ L, p.bundle = n := by
  induction L with
  | nil => exact fun init => ⟨[], by simp [pushFold]⟩
  | cons p L ih =>
    intro init
    by_cases hm : p.bundle ∈ init
    · obtain ⟨t, ht, hall⟩ := ih init
      refine ⟨t, ?_, fun n hn => ?_⟩
      · simpa [pushFold, hm] using ht
      · obtain ⟨q, hq, hqn⟩ := hall n hn
        exact ⟨q, List.mem_cons_of_mem _ hq, hqn⟩
    · obtain ⟨t, ht, hall⟩ := ih (init ++ [p.bundle])
      refine ⟨p.bundle :: t, ?_, fun n hn => ?_⟩
      · simpa [pushFold, hm] using ht
      · rcases List.mem_cons.mp hn with h | h
        · exact ⟨p, List.mem_cons_self p L, h.symm⟩
        · obtain ⟨q, hq, hqn⟩ := hall n h
          exact ⟨q, List.mem_cons_of_mem _ hq, hqn⟩

theorem mem_pushFold (L : List PackageInfo) :
    ∀ (init : List String) (n : String),
      n ∈ pushFold init L ↔ n ∈ init ∨ ∃ p ∈ L, p.bundle = n := by
  induction L with
  | nil => simp [pushFold]
  | cons p L ih =>
    intro init n
    by_cases hm : p.bundle ∈ init
    · rw [show pushFold init (p :: L) = pushFold init L from by simp [pushFold, hm]]
      rw [ih]
      constructor
      · rintro (h | ⟨q, hq, hqn⟩)
        · exact Or.inl h
        · exact Or.inr ⟨q, List.mem_cons_of_mem _ hq, hqn⟩
      · rintro (h | ⟨q, hq, hqn⟩)
        · exact Or.inl h
        · rcases List.mem_cons.mp hq with rfl | hq
          · exact Or.inl (hqn ▸ hm)
          · exact Or.inr ⟨q, hq, hqn⟩
    · rw [show pushFold init (p :: L) = pushFold (init ++ [p.bundle]) L from by
        simp [pushFold, hm]]
      rw [ih]
      simp only [List.mem_append, List.mem_singleton]
      constructor
      · rintro ((h | h) | ⟨q, hq, hqn⟩)
        · exact Or.inl h
        · exact Or.inr ⟨p, List.mem_cons_self p L, h.symm⟩
        · exact Or.inr ⟨q, List.mem_cons_of_mem _ hq, hqn⟩
      · rintro (h | ⟨q, hq, hqn⟩)
        · exact Or.inl (Or.inl h)
        · rcases List.mem_cons.mp hq with rfl | hq
          · exact Or.inl (Or.inr hqn.symm)
          · exact Or.inr ⟨q, hq, hqn⟩

theorem pushFold_nodup (L : List PackageInfo) :
    ∀ init : List String, init.Nodup → (pushFold init L).Nodup := by
  induction L with
  | nil => exact fun init h => h
  | cons p L ih =>
    intro init h
    by_cases hm : p.bundle ∈ init
    · rw [show pushFold init (p :: L) = pushFold init L from by simp [pushFold, hm]]
      exact ih init h
    · rw [show pushFold init (p :: L) = pushFold (init ++ [p.bundle]) L from by
        simp [pushFold, hm]]
      exact ih _ (h.append (List.nodup_singleton _)
        (fun a ha hb => hm ((List.mem_singleton.mp hb) ▸ ha)))

/-! ### Lemmas about the name-to-bundle lookup of `checkBundles` -/

theorem bundleByName_eq_some (bundles : List DllBundleConfig) (n : String)
    (b : DllBundleConfig) (h : bundleByName bundles n = some b) :
    b ∈ bundles ∧ b.name = n := by
  have hb : b ∈ bundles.filter (fun b => b.name == n) := by
    cases hf : bundles.filter (fun b => b.name == n) with
    | nil => simp [bundleByName, hf] at h
    | cons x xs =>
      simp only [bundleByName, hf, List.head?] at h
      exact List.mem_cons.mpr (Or.inl (Option.some.inj h).symm)
  have := List.mem_filter.mp hb
  exact ⟨this.1, by simpa using this.2⟩

theorem bundleByName_of_nodup (bundles : List DllBundleConfig) (b : DllBundleConfig)
    (h : (bundles.map (fun x => x.name)).Nodup) (hb : b ∈ bundles) :
    bundleByName bundles b.name = some b := by
  induction bundles with
  | nil => simp at hb
  | cons b' rest ih =>
    simp only [List.map_cons, List.nodup_cons] at h
    rcases List.mem_cons.mp hb with rfl | hb
    · simp [bundleByName]
    · have hne : b'.name ≠ b.name := by
        intro he
        exact h.1 (he ▸ List.mem_map_of_mem (fun x => x.name) hb)
      simpa [bundleByName, List.filter_cons, hne] using ih h.2 hb

theorem bundleByName_eq_none (bundles : List DllBundleConfig) (n : String)
    (h : ∀ b ∈ bundles, b.name ≠ n) : bundleByName bundles n = none := by
  have : bundles.filter (fun b => b.name == n) = [] :=
    List.filter_eq_nil_iff.mpr (fun b hb => by simpa using h b hb)
  simp [bundleByName, this]

/-! ### Structure of `checkBundles` and `getMetadata` -/

theorem checkBundles_ok_eq (env : String → ResolveOutcome) (fsE : String → Bool)
    (dllDir : String) (ign : Bool) (bundles : List DllBundleConfig)
    (state : BundleState) (l : List (Option DllBundleConfig))
    (h : checkBundles env fsE dllDir ign bundles state = .ok l) :
    l = (pushFold (invalidBundleNames fsE dllDir bundles)
        ((analyzeState (getMetadata env bundles) state).added
          ++ (analyzeState (getMetadata env bundles) state).changed
          ++ (analyzeState (getMetadata env bundles) state).removed
          ++ (analyzeState (getMetadata env bundles) state).error)).map
      (bundleByName bundles) := by
  unfold checkBundles at h
  split at h
  · exact Except.noConfusion h
  · exact (Except.ok.inj h).symm

theorem mkPackageInfo_fresh (b : String) (r : PkgRef) :
    (mkPackageInfo b r).version = none ∧ (mkPackageInfo b r).error = none := by
  cases r <;> simp [mkPackageInfo]

theorem mem_getMetadata (env : String → ResolveOutcome)
    (bundles : List DllBundleConfig) (p : PackageInfo)
    (h : p ∈ getMetadata env bundles) :
    ∃ q : PackageInfo, q.version = none ∧ q.error = none ∧ p = resolvePackage env q := by
  unfold getMetadata at h
  rw [List.mem_map] at h
  obtain ⟨q, hq, rfl⟩ := h
  rw [List.mem_flatten] at hq
  obtain ⟨l, hl, hql⟩ := hq
  rw [List.mem_map] at hl
  obtain ⟨b, _, rfl⟩ := hl
  rw [List.mem_map] at hql
  obtain ⟨r, _, rfl⟩ := hql
  exact ⟨mkPackageInfo b.name r, (mkPackageInfo_fresh b.name r).1,
    (mkPackageInfo_fresh b.name r).2, rfl⟩

theorem getPackageJson_error_kinds (env : String → ResolveOutcome) (uri : String)
    (e : PkgFailure) (h : getPackageJson env uri = .error e) :
    (∃ m, e = .resolution m) ∨ (∃ m, e = .manifest m) := by
  unfold getPackageJson at h
  cases henv : env uri with
  | resolveFail m =>
    rw [henv] at h
    exact Or.inl ⟨m, (Except.error.inj h).symm⟩
  | manifestFail m =>
    rw [henv] at h
    exact Or.inr ⟨m, (Except.error.inj h).symm⟩
  | manifest n v =>
    rw [henv] at h
    by_cases ht : truthy n && truthy v
    · exact absurd h (by simp [ht])
    · have h2 : Except.error (PkgFailure.manifest "Invalid package.json")
          = (Except.error e : Except PkgFailure (String × String)) := by
        rw [← h]
        simp [ht]
      exact Or.inr ⟨"Invalid package.json", (Except.error.inj h2).symm⟩

/-! ### The persisted state built by `saveBundleState` -/

/-- The `reduce` step of `saveBundleState`. -/
def saveStep (st : BundleState) (pkg : PackageInfo) : BundleState :=
  stateSet st pkg.name ⟨pkg.bundle, pkg.version⟩

theorem buildBundleState_eq_foldl (metadata : List PackageInfo) :
    buildBundleState metadata
      = (metadata.filter (fun m => !m.error.isSome)).foldl saveStep [] := rfl

theorem stateLookup_foldl_saveStep (L : List PackageInfo) :
    ∀ (init : BundleState) (k : String) (e : StateEntry),
      stateLookup (L.foldl saveStep init) k = some e →
      stateLookup init k = some e ∨
        ∃ p ∈ L, p.name = k ∧ e = ⟨p.bundle, p.version⟩ := by
  induction L with
  | nil => exact fun init k e h => Or.inl h
  | cons p L ih =>
    intro init k e h
    rcases ih (saveStep init p) k e h with h' | ⟨q, hq, hqe⟩
    · by_cases hk : k = p.name
      · subst hk
        rw [saveStep, stateLookup_stateSet_self] at h'
        exact Or.inr ⟨p, List.mem_cons_self p L, rfl, (Option.some.inj h').symm⟩
      · rw [saveStep, stateLookup_stateSet_ne init p.name k _ hk] at h'
        exact Or.inl h'
    · exact Or.inr ⟨q, List.mem_cons_of_mem _ hq, hqe⟩

theorem mem_stateKeys_foldl_saveStep (L : List PackageInfo) :
    ∀ (init : BundleState) (k : String),
      (k ∈ stateKeys init ∨ ∃ p ∈ L, p.name = k) →
      k ∈ stateKeys (L.foldl saveStep init) := by
  induction L with
  | nil =>
    rintro init k (h | ⟨p, hp, _⟩)
    · exact h
    · simp at hp
  | cons p L ih =>
    rintro init k (h | ⟨q, hq, hqk⟩)
    · refine ih (saveStep init p) k (Or.inl ?_)
      rw [saveStep, stateKeys_stateSet]
      split
      · exact h
      · exact List.mem_append_left _ h
    · rcases List.mem_cons.mp hq with h' | hq
      · refine ih (saveStep init p) k (Or.inl ?_)
        have hpk : p.name = k := h' ▸ hqk
        rw [saveStep, stateKeys_stateSet, hpk]
        split
        · assumption
        · exact List.mem_append_right _ (List.mem_singleton_self k)
      · exact ih (saveStep init p) k (Or.inr ⟨q, hq, hqk⟩)

theorem stateKeys_foldl_saveStep_nodup (L : List PackageInfo) :
    ∀ init : BundleState, (stateKeys init).Nodup →
      (stateKeys (L.foldl saveStep init)).Nodup := by
  induction L with
  | nil => exact fun init h => h
  | cons p L ih =>
    intro init h
    exact ih (saveStep init p) (stateKeys_stateSet_nodup init p.name _ h)

theorem buildBundleState_keys_nodup (metadata : List PackageInfo) :
    (stateKeys (buildBundleState metadata)).Nodup := by
  rw [buildBundleState_eq_foldl]
  exact stateKeys_foldl_saveStep_nodup _ [] (by simp [stateKeys])

theorem stateLookup_foldl_saveStep_skip (L : List PackageInfo) :
    ∀ (init : BundleState) (k : String),
      (∀ p ∈ L, p.name ≠ k) →
      stateLookup (L.foldl saveStep init) k = stateLookup init k := by
  induction L with
  | nil => exact fun init k _ => rfl
  | cons p L ih =>
    intro init k h
    rw [List.foldl_cons, ih (saveStep init p) k (fun q hq => h q (List.mem_cons_of_mem _ hq))]
    exact stateLookup_stateSet_ne init p.name k _
      (fun hk => h p (List.mem_cons_self p L) hk.symm)

theorem resolvePackage_cases (env : String → ResolveOutcome) (q : PackageInfo) :
    (∃ e, getPackageJson env q.path = .error e ∧
      resolvePackage env q = { q with error := some e })
    ∨ (∃ n v, getPackageJson env q.path = .ok (n, v) ∧ q.name = n ∧
      resolvePackage env q = { q with version := some v })
    ∨ (∃ n v, getPackageJson env q.path = .ok (n, v) ∧ q.name ≠ n ∧
      resolvePackage env q
        = { q with version := some v, error := some (.nameMismatch q.name n) }) := by
  unfold resolvePackage
  cases hg : getPackageJson env q.path with
  | error e => exact Or.inl ⟨e, rfl, rfl⟩
  | ok nv =>
    obtain ⟨n, v⟩ := nv
    by_cases hn : q.name = n
    · exact Or.inr (Or.inl ⟨n, v, rfl, hn, by simp [hn]⟩)
    · exact Or.inr (Or.inr ⟨n, v, rfl, hn, by simp [hn]⟩)

/-! ### C2: version/error discipline of the metadata collector -/

/-- C2 counterexample: on a name mismatch the collector leaves BOTH the
version and the error field set on the produced descriptor, contradicting
the claim that exactly one of the two is set and that a name-mismatch
failure leaves the version unset. -/
theorem getMetadata_mismatch_sets_both :
    (getMetadata envMismatch bundlesMismatch).map (fun p => (p.version, p.error))
      = [(some "2.0.0", some (.nameMismatch "want" "other"))]
    ∧ (getMetadata envMismatch bundlesMismatch).map
        (fun p => p.version.isSome && p.error.isSome) = [true] := by
  exact ⟨rfl, rfl⟩

/-- C2 (amended): every descriptor produced by the metadata collector has
at least one of its version/error fields set on completion, and both are
set exactly when the failure is a name mismatch (the manifest was loaded,
so the version had already been assigned); a resolution or manifest
failure leaves the version unset, and a successful resolution leaves the
error unset. -/
theorem getMetadata_version_error_discipline (env : String → ResolveOutcome)
    (bundles : List DllBundleConfig) :
    ∀ p ∈ getMetadata env bundles,
      (p.version.isSome ∨ p.error.isSome)
      ∧ ((p.version.isSome ∧ p.error.isSome) ↔
          ∃ a b, p.error = some (.nameMismatch a b)) := by
  intro p hp
  obtain ⟨q, hv, he, rfl⟩ := mem_getMetadata env bundles p hp
  rcases resolvePackage_cases env q with ⟨e, hg, hres⟩ | ⟨n, v, _, _, hres⟩ |
    ⟨n, v, _, _, hres⟩
  · rw [hres]
    rcases getPackageJson_error_kinds env q.path e hg with ⟨m, rfl⟩ | ⟨m, rfl⟩
    · exact ⟨Or.inr (by simp), by simp [hv]⟩
    · exact ⟨Or.inr (by simp), by simp [hv]⟩
  · rw [hres]
    exact ⟨Or.inl (by simp), by simp [he]⟩
  · rw [hres]
    refine ⟨Or.inl (by simp), ?_⟩
    simp [he]

/-- C2 witness: the amended discipline evaluated on the concrete
mismatch configuration. -/
theorem getMetadata_version_error_discipline_witness :
    (mismatchDescriptor.version.isSome ∨ mismatchDescriptor.error.isSome)
    ∧ ((mismatchDescriptor.version.isSome ∧ mismatchDescriptor.error.isSome) ↔
        ∃ a b, mismatchDescriptor.error = some (.nameMismatch a b)) :=
  getMetadata_version_error_discipline envMismatch bundlesMismatch
    mismatchDescriptor (by decide)

/-! ### C3: when the package resolver fails with a manifest error -/

/-- C3 counterexample: a manifest that parses and carries a (truthy)
version but no name field still fails with the `Invalid package.json`
manifest error, though the claim says a manifest containing at least one
of the two fields never fails with a manifest error. -/
theorem getPackageJson_version_only_fails :
    envVersionOnly "pkg" = .manifest none (some "1.0.0")
    ∧ truthy (some "1.0.0") = true
    ∧ getPackageJson envVersionOnly "pkg"
        = .error (.manifest "Invalid package.json") :=
  ⟨rfl, by decide, rfl⟩

/-- C3 (amended): resolution fails with a manifest error exactly when the
manifest is missing/unparsable, or when it lacks the name field OR the
version field (either one missing suffices, JavaScript-truthily). -/
theorem getPackageJson_manifestError_iff (env : String → ResolveOutcome)
    (uri : String) :
    (∃ m, getPackageJson env uri = .error (.manifest m)) ↔
      (∃ m, env uri = .manifestFail m) ∨
        ∃ n v, env uri = .manifest n v
          ∧ (truthy n = false ∨ truthy v = false) := by
  unfold getPackageJson
  cases henv : env uri with
  | resolveFail m => simp
  | manifestFail m => simp
  | manifest n v =>
    by_cases ht : truthy n && truthy v
    · have hcond : truthy n = true ∧ truthy v = true := by
        rw [Bool.and_eq_true] at ht
        exact ht
      simp [ht, hcond.1, hcond.2]
    · have ht' : truthy n = false ∨ truthy v = false := by
        cases hn : truthy n <;> cases hv2 : truthy v <;> simp_all
      constructor
      · intro _
        exact Or.inr ⟨n, v, rfl, ht'⟩
      · intro _
        exact ⟨"Invalid package.json", by simp [ht]⟩

/-! ### C8: what `save` persists -/

/-- C8: `saveBundleState` filters out every errored descriptor and writes
exactly the name-to-`{bundle, version}` mapping built from the remaining
ones: every entry of the persisted object originates from a non-errored
descriptor bearing that name (so a package that only errored never
appears in the persisted state), and conversely every non-errored
descriptor's name is present in the persisted object. -/
theorem saveBundleState_filters_errored (metadata : List PackageInfo) :
    (∀ k e, stateLookup (buildBundleState metadata) k = some e →
      ∃ p ∈ metadata, p.error = none ∧ p.name = k ∧ e = ⟨p.bundle, p.version⟩)
    ∧ ∀ p ∈ metadata, p.error = none →
      p.name ∈ stateKeys (buildBundleState metadata) := by
  constructor
  · intro k e h
    rw [buildBundleState_eq_foldl] at h
    rcases stateLookup_foldl_saveStep _ [] k e h with h' | ⟨p, hp, hname, hentry⟩
    · exact absurd h' (by simp [stateLookup])
    · have hmem := List.mem_filter.mp hp
      refine ⟨p, hmem.1, ?_, hname, hentry⟩
      simpa using hmem.2
  · intro p hp he
    rw [buildBundleState_eq_foldl]
    refine mem_stateKeys_foldl_saveStep _ [] p.name (Or.inr ⟨p, ?_, rfl⟩)
    exact List.mem_filter.mpr ⟨hp, by simp [he]⟩

/-- C8 witness: on metadata with one resolved and one errored descriptor,
the persisted entry for `ok` comes from the non-errored descriptor, and
`ok` is a key of the written state. -/
theorem saveBundleState_filters_errored_witness :
    (∃ p ∈ sampleMetadata, p.error = none ∧ p.name = "ok"
      ∧ (⟨"b1", some "1.0.0"⟩ : StateEntry) = ⟨p.bundle, p.version⟩)
    ∧ "ok" ∈ stateKeys (buildBundleState sampleMetadata) :=
  ⟨(saveBundleState_filters_errored sampleMetadata).1 "ok" ⟨"b1", some "1.0.0"⟩
      (by decide),
    (saveBundleState_filters_errored sampleMetadata).2
      { bundle := "b1", name := "ok", path := "ok", version := some "1.0.0" }
      (by decide) (by decide)⟩

/-! ### C10: duplicate names in `save` follow last-occurrence-wins -/

/-- C10: when several non-errored descriptors share a declared name, the
state written by `save` holds the `{bundle, version}` of the LAST such
occurrence — each `reduce` step overwrites the entry keyed by the name. -/
theorem saveBundleState_last_occurrence_wins (m₁ m₂ : List PackageInfo)
    (p : PackageInfo) (hp : p.error = none)
    (h₂ : ∀ q ∈ m₂, q.error = none → q.name ≠ p.name) :
    stateLookup (buildBundleState (m₁ ++ p :: m₂)) p.name
      = some ⟨p.bundle, p.version⟩ := by
  rw [buildBundleState_eq_foldl, List.filter_append]
  rw [show (p :: m₂).filter (fun m => !m.error.isSome)
      = p :: m₂.filter (fun m => !m.error.isSome) from by
    simp [List.filter_cons, hp]]
  rw [List.foldl_append, List.foldl_cons]
  have hskip : ∀ q ∈ m₂.filter (fun m => !m.error.isSome), q.name ≠ p.name := by
    intro q hq
    have hmem := List.mem_filter.mp hq
    exact h₂ q hmem.1 (by simpa using hmem.2)
  rw [stateLookup_foldl_saveStep_skip _ _ _ hskip]
  exact stateLookup_stateSet_self _ p.name _

/-- C10 witness: with two non-errored descriptors `a@1` (bundle `b1`)
then `a@2` (bundle `b2`), the persisted entry for `a` is the second
one's `{bundle, version}`. -/
theorem saveBundleState_last_occurrence_wins_witness :
    stateLookup (buildBundleState ([dupFirst] ++ dupSecond :: [])) dupSecond.name
      = some ⟨dupSecond.bundle, dupSecond.version⟩ :=
  saveBundleState_last_occurrence_wins [dupFirst] [] dupSecond (by decide)
    (by decide)

/-! ### C4: strict/permissive error policy of the check -/

/-- C4 counterexample: with the single bundle `vendor` whose one package
`pkgX` fails to resolve, the strict-mode check throws the fixed message
`DllBundlesPlugin: Some packages have errors.`; the errored package's
name `pkgX` is not a substring of that message, so the thrown error does
not enumerate the errored packages' names or reasons (those are only
reported via logging, modelled by `reportedPackageErrors`). -/
theorem checkBundles_strict_error_not_enumerated :
    checkBundles envMissing fsAll "d" false bundlesPkgX [] = .error checkErrorMsg
    ∧ (reportedPackageErrors envMissing bundlesPkgX []).map (fun p => p.name)
        = ["pkgX"]
    ∧ ¬ ("pkgX".toList <:+: checkErrorMsg.toList) := by
  refine ⟨rfl, rfl, by decide⟩

/-- C4 (amended): when the errored set is non-empty, in strict mode the
check fails with the single fixed error `DllBundlesPlugin: Some packages
have errors.` (the per-package names and reasons are reported via the
log, not carried in the error) and no rebuild list is produced; in
permissive mode the check succeeds and its rebuild list includes every
declared bundle owning an errored package. -/
theorem checkBundles_error_policy (env : String → ResolveOutcome)
    (fsE : String → Bool) (dllDir : String) (bundles : List DllBundleConfig)
    (state : BundleState)
    (hnodup : (bundles.map (fun b => b.name)).Nodup)
    (herr : (analyzeState (getMetadata env bundles) state).error ≠ []) :
    checkBundles env fsE dllDir false bundles state = .error checkErrorMsg
    ∧ ∃ l, checkBundles env fsE dllDir true bundles state = .ok l
      ∧ ∀ p ∈ (analyzeState (getMetadata env bundles) state).error,
          ∀ b ∈ bundles, b.name = p.bundle → some b ∈ l := by
  have hlen : (analyzeState (getMetadata env bundles) state).error.length > 0 :=
    List.length_pos.mpr herr
  constructor
  · unfold checkBundles
    rw [if_pos (by simp [hlen])]
  · have hok : checkBundles env fsE dllDir true bundles state
        = .ok ((pushFold (invalidBundleNames fsE dllDir bundles)
            ((analyzeState (getMetadata env bundles) state).added
              ++ (analyzeState (getMetadata env bundles) state).changed
              ++ (analyzeState (getMetadata env bundles) state).removed
              ++ (analyzeState (getMetadata env bundles) state).error)).map
          (bundleByName bundles)) := by
      unfold checkBundles
      rw [if_neg (by simp)]
    refine ⟨_, hok, ?_⟩
    intro p hp b hb hbn
    have hname : bundleByName bundles p.bundle = some b :=
      hbn ▸ bundleByName_of_nodup bundles b hnodup hb
    have hmem : p.bundle ∈ pushFold (invalidBundleNames fsE dllDir bundles)
        ((analyzeState (getMetadata env bundles) state).added
          ++ (analyzeState (getMetadata env bundles) state).changed
          ++ (analyzeState (getMetadata env bundles) state).removed
          ++ (analyzeState (getMetadata env bundles) state).error) :=
      (mem_pushFold _ _ _).mpr (Or.inr ⟨p, by simp [hp], rfl⟩)
    exact hname ▸ List.mem_map_of_mem (bundleByName bundles) hmem

/-- C4 witness: the amended error policy evaluated on the concrete
configuration with the unresolvable package `pkgX`. -/
theorem checkBundles_error_policy_witness :
    checkBundles envMissing fsAll "d" false bundlesPkgX [] = .error checkErrorMsg
    ∧ ∃ l, checkBundles envMissing fsAll "d" true bundlesPkgX [] = .ok l
      ∧ ∀ p ∈ (analyzeState (getMetadata envMissing bundlesPkgX) []).error,
          ∀ b ∈ bundlesPkgX, b.name = p.bundle → some b ∈ l :=
  checkBundles_error_policy envMissing fsAll "d" bundlesPkgX []
    (by decide) (by decide)

/-! ### Shape of `analyzeState` and survival of untouched entries -/

theorem analyzeState_eq (packages : List PackageInfo) (state : BundleState) :
    analyzeState packages state
      = { (packages.foldl analyzeStep (emptyAnalyzed, state, [])).1 with
          removed :=
            (packages.foldl analyzeStep (emptyAnalyzed, state, [])).2.1.map
              (fun kv => mkPackageInfo kv.2.bundle (.str kv.1)) } := rfl

theorem analyzeState_current_eq (packages : List PackageInfo) (state : BundleState) :
    (analyzeState packages state).current
      = (packages.foldl analyzeStep (emptyAnalyzed, state, [])).1.current := rfl

theorem analyzeState_changed_proj (packages : List PackageInfo) (state : BundleState) :
    (analyzeState packages state).changed
      = (packages.foldl analyzeStep (emptyAnalyzed, state, [])).1.changed := rfl

theorem analyzeState_added_proj (packages : List PackageInfo) (state : BundleState) :
    (analyzeState packages state).added
      = (packages.foldl analyzeStep (emptyAnalyzed, state, [])).1.added := rfl

theorem analyzeState_error_proj (packages : List PackageInfo) (state : BundleState) :
    (analyzeState packages state).error
      = (packages.foldl analyzeStep (emptyAnalyzed, state, [])).1.error := rfl

theorem analyzeState_removed_proj (packages : List PackageInfo) (state : BundleState) :
    (analyzeState packages state).removed
      = (packages.foldl analyzeStep (emptyAnalyzed, state, [])).2.1.map
          (fun kv => mkPackageInfo kv.2.bundle (.str kv.1)) := rfl

theorem analyzeStep_error_eq (res : AnalyzedState) (bs : BundleState)
    (hist : List String) (p : PackageInfo) (h : p.error.isSome = true) :
    analyzeStep (res, bs, hist) p
      = ({ res with error := res.error ++ [p] }, stateDel bs p.name,
          hist ++ [p.name]) := by
  simp [analyzeStep, h]

theorem analyzeStep_current_eq (res : AnalyzedState) (bs : BundleState)
    (hist : List String) (p : PackageInfo) (entry : StateEntry)
    (h : p.error = none) (hl : stateLookup bs p.name = some entry)
    (hv : entry.version = p.version) :
    analyzeStep (res, bs, hist) p
      = ({ res with current := res.current ++ [p] }, stateDel bs p.name,
          hist ++ [p.name]) := by
  simp [analyzeStep, h, hl, hv]

theorem analyzeStep_changed_eq (res : AnalyzedState) (bs : BundleState)
    (hist : List String) (p : PackageInfo) (entry : StateEntry)
    (h : p.error = none) (hl : stateLookup bs p.name = some entry)
    (hv : ¬entry.version = p.version) :
    analyzeStep (res, bs, hist) p
      = ({ res with changed := res.changed ++ [p] }, stateDel bs p.name,
          hist ++ [p.name]) := by
  simp [analyzeStep, h, hl, hv]

theorem analyzeStep_skip_eq (res : AnalyzedState) (bs : BundleState)
    (hist : List String) (p : PackageInfo)
    (h : p.error = none) (hl : stateLookup bs p.name = none)
    (hh : p.name ∈ hist) :
    analyzeStep (res, bs, hist) p = (res, bs, hist) := by
  simp [analyzeStep, h, hl, hh]

theorem analyzeStep_added_eq (res : AnalyzedState) (bs : BundleState)
    (hist : List String) (p : PackageInfo)
    (h : p.error = none) (hl : stateLookup bs p.name = none)
    (hh : p.name ∉ hist) :
    analyzeStep (res, bs, hist) p
      = ({ res with added := res.added ++ [p] }, bs, hist) := by
  simp [analyzeStep, h, hl, hh]

theorem analyzeStep_bs_cases (res : AnalyzedState) (bs : BundleState)
    (hist : List String) (p : PackageInfo) :
    (analyzeStep (res, bs, hist) p).2.1 = bs ∨
      (analyzeStep (res, bs, hist) p).2.1 = stateDel bs p.name := by
  cases herr : p.error with
  | some e =>
    rw [analyzeStep_error_eq res bs hist p (by simp [herr])]
    exact Or.inr rfl
  | none =>
    cases hl : stateLookup bs p.name with
    | some entry =>
      by_cases hv : entry.version = p.version
      · rw [analyzeStep_current_eq res bs hist p entry herr hl hv]
        exact Or.inr rfl
      · rw [analyzeStep_changed_eq res bs hist p entry herr hl hv]
        exact Or.inr rfl
    | none =>
      by_cases hh : p.name ∈ hist
      · rw [analyzeStep_skip_eq res bs hist p herr hl hh]
        exact Or.inl rfl
      · rw [analyzeStep_added_eq res bs hist p herr hl hh]
        exact Or.inl rfl

theorem foldl_analyzeStep_preserves (L : List PackageInfo) :
    ∀ (acc : DiffAcc) (k : String) (e : StateEntry),
      (∀ p ∈ L, p.name ≠ k) → (k, e) ∈ acc.2.1 →
      (k, e) ∈ (L.foldl analyzeStep acc).2.1 := by
  induction L with
  | nil => exact fun acc k e _ h => h
  | cons p L ih =>
    intro acc k e hname hmem
    refine ih (analyzeStep acc p) k e
      (fun q hq => hname q (List.mem_cons_of_mem _ hq)) ?_
    obtain ⟨res, bs, hist⟩ := acc
    have hkp : p.name ≠ k := hname p (List.mem_cons_self p L)
    rcases analyzeStep_bs_cases res bs hist p with hbs | hbs
    · rw [hbs]
      exact hmem
    · rw [hbs]
      exact mem_stateDel_of_ne bs p.name (k, e) hmem (fun hh => hkp hh.symm)

theorem analyzeState_removed_of_stale (packages : List PackageInfo)
    (state : BundleState) (k : String) (e : StateEntry)
    (hke : (k, e) ∈ state) (hnoname : ∀ p ∈ packages, p.name ≠ k) :
    mkPackageInfo e.bundle (.str k) ∈ (analyzeState packages state).removed := by
  rw [analyzeState_eq]
  exact List.mem_map_of_mem _
    (foldl_analyzeStep_preserves packages (emptyAnalyzed, state, []) k e hnoname hke)

/-! ### C9: stale persisted bundles produce an undefined rebuild entry -/

/-- C9: if the persisted state holds an entry whose recorded bundle name
matches no declared bundle and whose package name no current descriptor
bears, then (when the check returns at all, i.e. no error blocks it) the
returned rebuild list contains an `undefined` element: the synthesized
removed record pushes the stale bundle name, and the lookup
`bundles.filter(...)[0]` over the declared bundles finds nothing. -/
theorem checkBundles_stale_bundle_yields_undefined
    (env : String → ResolveOutcome) (fsE : String → Bool) (dllDir : String)
    (ign : Bool) (bundles : List DllBundleConfig) (state : BundleState)
    (k : String) (e : StateEntry)
    (hke : (k, e) ∈ state)
    (hnotdecl : ∀ b ∈ bundles, b.name ≠ e.bundle)
    (hnoname : ∀ p ∈ getMetadata env bundles, p.name ≠ k)
    (hnoerr : (analyzeState (getMetadata env bundles) state).error = []) :
    ∃ l, checkBundles env fsE dllDir ign bundles state = .ok l ∧ none ∈ l := by
  have hok : checkBundles env fsE dllDir ign bundles state
      = .ok ((pushFold (invalidBundleNames fsE dllDir bundles)
          ((analyzeState (getMetadata env bundles) state).added
            ++ (analyzeState (getMetadata env bundles) state).changed
            ++ (analyzeState (getMetadata env bundles) state).removed
            ++ (analyzeState (getMetadata env bundles) state).error)).map
        (bundleByName bundles)) := by
    unfold checkBundles
    rw [if_neg (by simp [hnoerr])]
  refine ⟨_, hok, ?_⟩
  have hrm : mkPackageInfo e.bundle (.str k)
      ∈ (analyzeState (getMetadata env bundles) state).removed :=
    analyzeState_removed_of_stale (getMetadata env bundles) state k e hke hnoname
  have hmem : e.bundle ∈ pushFold (invalidBundleNames fsE dllDir bundles)
      ((analyzeState (getMetadata env bundles) state).added
        ++ (analyzeState (getMetadata env bundles) state).changed
        ++ (analyzeState (getMetadata env bundles) state).removed
        ++ (analyzeState (getMetadata env bundles) state).error) :=
    (mem_pushFold _ _ _).mpr (Or.inr ⟨mkPackageInfo e.bundle (.str k),
      by simp [hrm], rfl⟩)
  have hnone : bundleByName bundles e.bundle = none :=
    bundleByName_eq_none bundles e.bundle hnotdecl
  exact hnone ▸ List.mem_map_of_mem (bundleByName bundles) hmem

/-- C9 witness: with declared bundle `vendor1` and a persisted leftover
entry `gone` recorded under the no-longer-declared bundle `oldBundle`,
the check returns a rebuild list containing an undefined element. -/
theorem checkBundles_stale_bundle_yields_undefined_witness :
    ∃ l, checkBundles envGood fsAll "d" false bundlesPa stateStale = .ok l
      ∧ none ∈ l :=
  checkBundles_stale_bundle_yields_undefined envGood fsAll "d" false bundlesPa
    stateStale "gone" ⟨"oldBundle", some "2.0"⟩ (by decide) (by decide)
    (by decide) (by decide)

/-! ### C5: what the check flags for rebuild -/

/-- C5: for every declared bundle (bundle names are distinct, as they come
from the keys of the options object), the check's returned rebuild list
contains that bundle iff one of its two artifact files is missing
(`bundleLooksValid` is true) or some descriptor classified added, changed,
removed or errored belongs to it. -/
theorem checkBundles_flags_iff (env : String → ResolveOutcome)
    (fsE : String → Bool) (dllDir : String) (ign : Bool)
    (bundles : List DllBundleConfig) (state : BundleState)
    (l : List (Option DllBundleConfig)) (b : DllBundleConfig)
    (hnodup : (bundles.map (fun x => x.name)).Nodup)
    (hok : checkBundles env fsE dllDir ign bundles state = .ok l)
    (hb : b ∈ bundles) :
    some b ∈ l ↔
      (bundleLooksValid fsE dllDir b.name = true
        ∨ ∃ p ∈ (analyzeState (getMetadata env bundles) state).added
            ++ (analyzeState (getMetadata env bundles) state).changed
            ++ (analyzeState (getMetadata env bundles) state).removed
            ++ (analyzeState (getMetadata env bundles) state).error,
          p.bundle = b.name) := by
  have hl := checkBundles_ok_eq env fsE dllDir ign bundles state l hok
  subst hl
  constructor
  · intro hmem
    rw [List.mem_map] at hmem
    obtain ⟨n, hn, hbn⟩ := hmem
    obtain ⟨-, hbname⟩ := bundleByName_eq_some bundles n b hbn
    rw [mem_pushFold] at hn
    rcases hn with hn | ⟨p, hp, hpn⟩
    · left
      unfold invalidBundleNames at hn
      rw [List.mem_filter] at hn
      rw [hbname]
      exact hn.2
    · right
      exact ⟨p, hp, by rw [hpn, hbname]⟩
  · intro h
    have hn : b.name ∈ pushFold (invalidBundleNames fsE dllDir bundles)
        ((analyzeState (getMetadata env bundles) state).added
          ++ (analyzeState (getMetadata env bundles) state).changed
          ++ (analyzeState (getMetadata env bundles) state).removed
          ++ (analyzeState (getMetadata env bundles) state).error) := by
      rcases h with h | ⟨p, hp, hpb⟩
      · refine (mem_pushFold _ _ _).mpr (Or.inl ?_)
        unfold invalidBundleNames
        rw [List.mem_filter]
        exact ⟨List.mem_map_of_mem _ hb, h⟩
      · exact (mem_pushFold _ _ _).mpr (Or.inr ⟨p, hp, hpb⟩)
    have hlook := bundleByName_of_nodup bundles b hnodup hb
    exact hlook ▸ List.mem_map_of_mem (bundleByName bundles) hn

/-- C5 witness: the flagging criterion evaluated on a concrete run in
which `vendor2` lacks its artifact files and `vendor1` owns a changed
package. -/
theorem checkBundles_flags_iff_witness :
    some (⟨"vendor2", []⟩ : DllBundleConfig)
        ∈ [some (⟨"vendor2", []⟩ : DllBundleConfig),
           some (⟨"vendor1", [.str "pa"]⟩ : DllBundleConfig)] ↔
      (bundleLooksValid fsNoVendor2 "d" "vendor2" = true
        ∨ ∃ p ∈ (analyzeState (getMetadata envGood bundlesTwo) stateOld).added
            ++ (analyzeState (getMetadata envGood bundlesTwo) stateOld).changed
            ++ (analyzeState (getMetadata envGood bundlesTwo) stateOld).removed
            ++ (analyzeState (getMetadata envGood bundlesTwo) stateOld).error,
          p.bundle = "vendor2") :=
  checkBundles_flags_iff envGood fsNoVendor2 "d" false bundlesTwo stateOld
    [some ⟨"vendor2", []⟩, some ⟨"vendor1", [.str "pa"]⟩] ⟨"vendor2", []⟩
    (by decide) (by rfl) (by decide)

/-! ### C1: which classification lists can share a package name -/

theorem analyzeStep_inv (acc : DiffAcc) (p : PackageInfo) (h : DiffInv acc) :
    DiffInv (analyzeStep acc p) := by
  obtain ⟨res, bs, hist⟩ := acc
  obtain ⟨k1, k2, k3, k4, k6, d⟩ := h
  have k1' : ∀ n, n ∈ res.current.map PackageInfo.name
      ∨ n ∈ res.changed.map PackageInfo.name → n ∈ hist := by
    intro n hn
    exact k1 n (by rw [List.map_append, List.mem_append]; exact hn)
  have hjoin : ∀ n, (n ∈ res.current.map PackageInfo.name
      ∨ n ∈ res.changed.map PackageInfo.name) →
      n ∈ (res.current ++ res.changed).map PackageInfo.name := by
    intro n hn
    rw [List.map_append, List.mem_append]
    exact hn
  cases herr : p.error with
  | some e =>
    rw [analyzeStep_error_eq res bs hist p (by simp [herr])]
    refine ⟨?_, ?_, ?_, k4, k6, (stateKeys_stateDel_sublist bs p.name).nodup d⟩
    · intro n hn
      exact List.mem_append_left _ (k1 n hn)
    · intro n hn
      rcases List.mem_append.mp hn with hn | hn
      · exact stateLookup_stateDel_none bs p.name n (k2 n hn)
      · rw [List.mem_singleton] at hn
        subst hn
        exact stateLookup_stateDel_self bs p.name d
    · intro n hn
      exact stateLookup_stateDel_none bs p.name n (k3 n hn)
  | none =>
    cases hl : stateLookup bs p.name with
    | some entry =>
      have hph : p.name ∉ hist := fun hc =>
        Option.noConfusion (hl.symm.trans (k2 p.name hc))
      have hpc : p.name ∉ (res.current ++ res.changed).map PackageInfo.name :=
        fun hc => hph (k1 _ hc)
      have hpa : p.name ∉ res.added.map PackageInfo.name := fun hc =>
        Option.noConfusion (hl.symm.trans (k3 p.name hc))
      have hnodup2 : ((res.current ++ res.changed).map PackageInfo.name
          ++ [p.name]).Nodup :=
        k4.append (List.nodup_singleton _)
          (fun a ha hb => hpc ((List.mem_singleton.mp hb) ▸ ha))
      by_cases hv : entry.version = p.version
      · rw [analyzeStep_current_eq res bs hist p entry herr hl hv]
        refine ⟨?_, ?_, ?_, ?_, ?_,
          (stateKeys_stateDel_sublist bs p.name).nodup d⟩
        · intro n hn
          rw [List.map_append, List.mem_append] at hn
          rcases hn with hn | hn
          · rw [List.map_append, List.mem_append] at hn
            rcases hn with hn | hn
            · exact List.mem_append_left _ (k1' n (Or.inl hn))
            · have hnp : n = p.name := by simpa using hn
              subst hnp
              exact List.mem_append_right _ (List.mem_singleton_self _)
          · exact List.mem_append_left _ (k1' n (Or.inr hn))
        · intro n hn
          rcases List.mem_append.mp hn with hn | hn
          · exact stateLookup_stateDel_none bs p.name n (k2 n hn)
          · have hnp : n = p.name := by simpa using hn
            subst hnp
            exact stateLookup_stateDel_self bs p.name d
        · intro n hn
          exact stateLookup_stateDel_none bs p.name n (k3 n hn)
        · have hstep1 : (res.current ++ [p]) ++ res.changed
              = res.current ++ ([p] ++ res.changed) :=
            List.append_assoc _ _ _
          have hstep2 : List.Perm (res.current ++ ([p] ++ res.changed))
              (res.current ++ (res.changed ++ [p])) :=
            List.Perm.append_left _ List.perm_append_comm
          have hstep3 : res.current ++ (res.changed ++ [p])
              = (res.current ++ res.changed) ++ [p] :=
            (List.append_assoc _ _ _).symm
          have hperm : List.Perm ((res.current ++ [p]) ++ res.changed)
              ((res.current ++ res.changed) ++ [p]) := by
            rw [hstep1, ← hstep3]
            exact hstep2
          refine ((hperm.map PackageInfo.name).nodup_iff).mpr ?_
          simpa [List.map_append] using hnodup2
        · intro n hn hc
          rw [List.map_append, List.mem_append] at hc
          rcases hc with hc | hc
          · rw [List.map_append, List.mem_append] at hc
            rcases hc with hc | hc
            · exact k6 n hn (hjoin n (Or.inl hc))
            · have hnp : n = p.name := by simpa using hc
              subst hnp
              exact hpa hn
          · exact k6 n hn (hjoin n (Or.inr hc))
      · rw [analyzeStep_changed_eq res bs hist p entry herr hl hv]
        refine ⟨?_, ?_, ?_, ?_, ?_,
          (stateKeys_stateDel_sublist bs p.name).nodup d⟩
        · intro n hn
          rw [List.map_append, List.mem_append] at hn
          rcases hn with hn | hn
          · exact List.mem_append_left _ (k1' n (Or.inl hn))
          · rw [List.map_append, List.mem_append] at hn
            rcases hn with hn | hn
            · exact List.mem_append_left _ (k1' n (Or.inr hn))
            · have hnp : n = p.name := by simpa using hn
              subst hnp
              exact List.mem_append_right _ (List.mem_singleton_self _)
        · intro n hn
          rcases List.mem_append.mp hn with hn | hn
          · exact stateLookup_stateDel_none bs p.name n (k2 n hn)
          · have hnp : n = p.name := by simpa using hn
            subst hnp
            exact stateLookup_stateDel_self bs p.name d
        · intro n hn
          exact stateLookup_stateDel_none bs p.name n (k3 n hn)
        · have hassoc : res.current ++ (res.changed ++ [p])
              = (res.current ++ res.changed) ++ [p] :=
            (List.append_assoc _ _ _).symm
          rw [hassoc]
          simpa [List.map_append] using hnodup2
        · intro n hn hc
          rw [List.map_append, List.mem_append] at hc
          rcases hc with hc | hc
          · exact k6 n hn (hjoin n (Or.inl hc))
          · rw [List.map_append, List.mem_append] at hc
            rcases hc with hc | hc
            · exact k6 n hn (hjoin n (Or.inr hc))
            · have hnp : n = p.name := by simpa using hc
              subst hnp
              exact hpa hn
    | none =>
      by_cases hh : p.name ∈ hist
      · rw [analyzeStep_skip_eq res bs hist p herr hl hh]
        exact ⟨k1, k2, k3, k4, k6, d⟩
      · rw [analyzeStep_added_eq res bs hist p herr hl hh]
        have hpc : p.name ∉ (res.current ++ res.changed).map PackageInfo.name :=
          fun hc => hh (k1 _ hc)
        refine ⟨k1, k2, ?_, k4, ?_, d⟩
        · intro n hn
          rw [List.map_append, List.mem_append] at hn
          rcases hn with hn | hn
          · exact k3 n hn
          · have hnp : n = p.name := by simpa using hn
            subst hnp
            exact hl
        · intro n hn
          rw [List.map_append, List.mem_append] at hn
          rcases hn with hn | hn
          · exact k6 n hn
          · have hnp : n = p.name := by simpa using hn
            subst hnp
            exact hpc

theorem foldl_analyzeStep_inv (L : List PackageInfo) :
    ∀ acc : DiffAcc, DiffInv acc → DiffInv (L.foldl analyzeStep acc) := by
  induction L with
  | nil => exact fun acc h => h
  | cons p L ih => exact fun acc h => ih _ (analyzeStep_inv acc p h)

/-- C1 counterexample: two descriptors sharing the declared name `pkgC`,
both resolving successfully, with no persisted entry for that name: both
are classified `added`, so the name receives two classifications instead
of the claimed at-most-one with later duplicates suppressed (only names
already matched against the working state or errored are suppressed). -/
theorem analyzeState_duplicate_added_twice :
    ((analyzeState (getMetadata envDup bundlesDup) []).added.map
      (fun p => p.name)) = ["pkgC", "pkgC"] := by decide

/-- C1 (amended): over a fixed descriptor list and persisted state (with
distinct persisted keys), the lists current, changed and removed are
pairwise name-disjoint and each mentions a name at most once, and no
added name occurs in any of them; a name found in the persisted state is
therefore classified at most once.  However, duplicates are suppressed
only after their name was matched against the state or errored: duplicate
descriptors whose name is absent from the persisted state are each
classified added again, and an errored descriptor is always recorded in
errored regardless of earlier classifications of its name. -/
theorem analyzeState_name_partition (packages : List PackageInfo)
    (state : BundleState) (hnodup : (stateKeys state).Nodup) :
    (((analyzeState packages state).current
        ++ (analyzeState packages state).changed
        ++ (analyzeState packages state).removed).map PackageInfo.name).Nodup
    ∧ ∀ n ∈ (analyzeState packages state).added.map PackageInfo.name,
        n ∉ ((analyzeState packages state).current
          ++ (analyzeState packages state).changed
          ++ (analyzeState packages state).removed).map PackageInfo.name := by
  have hinv : DiffInv (packages.foldl analyzeStep (emptyAnalyzed, state, [])) := by
    apply foldl_analyzeStep_inv
    refine ⟨?_, ?_, ?_, ?_, ?_, hnodup⟩ <;> simp [emptyAnalyzed]
  obtain ⟨k1, k2, k3, k4, k6, d⟩ := hinv
  have hkeys : ∀ n, n ∈ ((packages.foldl analyzeStep
        (emptyAnalyzed, state, [])).1.current
      ++ (packages.foldl analyzeStep (emptyAnalyzed, state, [])).1.changed).map
        PackageInfo.name →
      n ∉ stateKeys (packages.foldl analyzeStep (emptyAnalyzed, state, [])).2.1 := by
    intro n hn hmem
    have hnone := k2 n (k1 n hn)
    rw [stateLookup_eq_none_iff] at hnone
    exact hnone hmem
  have haddkeys : ∀ n, n ∈ (packages.foldl analyzeStep
        (emptyAnalyzed, state, [])).1.added.map PackageInfo.name →
      n ∉ stateKeys (packages.foldl analyzeStep (emptyAnalyzed, state, [])).2.1 := by
    intro n hn hmem
    have hnone := k3 n hn
    rw [stateLookup_eq_none_iff] at hnone
    exact hnone hmem
  have hremnames : (((packages.foldl analyzeStep
        (emptyAnalyzed, state, [])).2.1.map
          (fun kv => mkPackageInfo kv.2.bundle (.str kv.1))).map
        PackageInfo.name)
      = stateKeys (packages.foldl analyzeStep (emptyAnalyzed, state, [])).2.1 := by
    rw [List.map_map]
    rfl
  rw [analyzeState_current_eq, analyzeState_changed_proj, analyzeState_added_proj,
    analyzeState_removed_proj]
  constructor
  · rw [List.map_append, List.map_append, hremnames]
    rw [List.map_append] at k4
    rw [List.nodup_append]
    refine ⟨k4, d, ?_⟩
    intro a ha hb
    rw [← List.map_append] at ha
    exact hkeys a ha hb
  · intro n hn
    intro hc
    rw [List.map_append, List.map_append, hremnames] at hc
    rcases List.mem_append.mp hc with hc' | hc'
    · rw [← List.map_append] at hc'
      exact k6 n hn hc'
    · exact haddkeys n hn hc'

/-- C1 witness: the amended partition evaluated on the duplicate-name
configuration against a persisted state holding `pkgC`. -/
theorem analyzeState_name_partition_witness :
    (((analyzeState (getMetadata envDup bundlesDup) statePkgC).current
        ++ (analyzeState (getMetadata envDup bundlesDup) statePkgC).changed
        ++ (analyzeState (getMetadata envDup bundlesDup) statePkgC).removed).map
        PackageInfo.name).Nodup
    ∧ ∀ n ∈ (analyzeState (getMetadata envDup bundlesDup) statePkgC).added.map
          PackageInfo.name,
        n ∉ ((analyzeState (getMetadata envDup bundlesDup) statePkgC).current
          ++ (analyzeState (getMetadata envDup bundlesDup) statePkgC).changed
          ++ (analyzeState (getMetadata envDup bundlesDup) statePkgC).removed).map
            PackageInfo.name :=
  analyzeState_name_partition (getMetadata envDup bundlesDup) statePkgC (by decide)

/-! ### C6: shape and order of the rebuild list -/

theorem map_name_filter (bundles : List DllBundleConfig) (pred : String → Bool) :
    (bundles.map (fun b => b.name)).filter pred
      = (bundles.filter (fun b => pred b.name)).map (fun b => b.name) := by
  induction bundles with
  | nil => rfl
  | cons b rest ih =>
    by_cases h : pred b.name
    · simp [List.filter_cons, h, ih]
    · simp [List.filter_cons, h, ih]

/-- C6 counterexample: with bundles declared in the order `vendor1`,
`vendor2`, where `vendor2` lacks its artifact files and `vendor1` owns a
changed package, the returned rebuild list is `[vendor2, vendor1]` (the
artifact-invalid bundle first); its name sequence is not a sublist of the
declaration order `[vendor1, vendor2]`, so the flagged bundles are NOT
listed in declaration order. -/
theorem checkBundles_not_declaration_order :
    checkBundles envGood fsNoVendor2 "d" false bundlesTwo stateOld
      = .ok [some ⟨"vendor2", []⟩, some ⟨"vendor1", [.str "pa"]⟩]
    ∧ bundlesTwo.map (fun b => b.name) = ["vendor1", "vendor2"]
    ∧ ¬ List.Sublist ["vendor2", "vendor1"] (bundlesTwo.map (fun b => b.name)) := by
  refine ⟨by rfl, by rfl, by decide⟩

/-- C6 (amended): provided the declared bundle names are distinct and
every bundle referenced by a flagged descriptor is still declared, the
rebuild list contains only declared bundles and lists none more than
once; its order, however, is the artifact-invalid bundles first in
declaration order (proved via the `take` prefix) followed by the bundles
of the diff-flagged descriptors in the order first flagged, not the
overall declaration order. -/
theorem checkBundles_rebuild_list_shape (env : String → ResolveOutcome)
    (fsE : String → Bool) (dllDir : String) (ign : Bool)
    (bundles : List DllBundleConfig) (state : BundleState)
    (l : List (Option DllBundleConfig))
    (hnodup : (bundles.map (fun x => x.name)).Nodup)
    (hok : checkBundles env fsE dllDir ign bundles state = .ok l)
    (hdecl : ∀ p ∈ (analyzeState (getMetadata env bundles) state).added
        ++ (analyzeState (getMetadata env bundles) state).changed
        ++ (analyzeState (getMetadata env bundles) state).removed
        ++ (analyzeState (getMetadata env bundles) state).error,
      p.bundle ∈ bundles.map (fun x => x.name)) :
    (∀ x ∈ l, ∃ b ∈ bundles, x = some b)
    ∧ l.Nodup
    ∧ l.take (invalidBundleNames fsE dllDir bundles).length
        = (bundles.filter (fun b => bundleLooksValid fsE dllDir b.name)).map some := by
  have hl := checkBundles_ok_eq env fsE dllDir ign bundles state l hok
  subst hl
  have hdecl' : ∀ n ∈ pushFold (invalidBundleNames fsE dllDir bundles)
      ((analyzeState (getMetadata env bundles) state).added
        ++ (analyzeState (getMetadata env bundles) state).changed
        ++ (analyzeState (getMetadata env bundles) state).removed
        ++ (analyzeState (getMetadata env bundles) state).error),
      ∃ b ∈ bundles, b.name = n := by
    intro n hn
    have hnm : n ∈ bundles.map (fun x => x.name) := by
      rcases (mem_pushFold _ _ _).mp hn with h | ⟨p, hp, hpn⟩
      · unfold invalidBundleNames at h
        exact (List.mem_filter.mp h).1
      · exact hpn ▸ hdecl p hp
    rw [List.mem_map] at hnm
    obtain ⟨b, hb, hbn⟩ := hnm
    exact ⟨b, hb, hbn⟩
  refine ⟨?_, ?_, ?_⟩
  · intro x hx
    rw [List.mem_map] at hx
    obtain ⟨n, hn, rfl⟩ := hx
    obtain ⟨b, hb, rfl⟩ := hdecl' n hn
    exact ⟨b, hb, bundleByName_of_nodup bundles b hnodup hb⟩
  · have hinvnodup : (invalidBundleNames fsE dllDir bundles).Nodup := by
      unfold invalidBundleNames
      exact hnodup.filter _
    refine List.Nodup.map_on ?_ (pushFold_nodup _ _ hinvnodup)
    intro x hx y hy hxy
    obtain ⟨bx, hbx, rfl⟩ := hdecl' x hx
    obtain ⟨bz, hbz, rfl⟩ := hdecl' y hy
    rw [bundleByName_of_nodup bundles bx hnodup hbx,
      bundleByName_of_nodup bundles bz hnodup hbz] at hxy
    exact congrArg (fun b => b.name) (Option.some.inj hxy)
  · obtain ⟨t, ht, -⟩ := pushFold_exists_append
      ((analyzeState (getMetadata env bundles) state).added
        ++ (analyzeState (getMetadata env bundles) state).changed
        ++ (analyzeState (getMetadata env bundles) state).removed
        ++ (analyzeState (getMetadata env bundles) state).error)
      (invalidBundleNames fsE dllDir bundles)
    rw [ht, List.map_append]
    rw [show (invalidBundleNames fsE dllDir bundles).length
        = ((invalidBundleNames fsE dllDir bundles).map
            (bundleByName bundles)).length from (List.length_map _ _).symm]
    rw [List.take_left]
    unfold invalidBundleNames
    rw [map_name_filter bundles (fun n => bundleLooksValid fsE dllDir n)]
    rw [List.map_map]
    refine List.map_congr_left ?_
    intro b hb
    exact bundleByName_of_nodup bundles b hnodup (List.mem_filter.mp hb).1

/-- C6 witness: the amended shape evaluated on the concrete two-bundle
run whose rebuild list is `[vendor2, vendor1]`. -/
theorem checkBundles_rebuild_list_shape_witness :
    (∀ x ∈ [some (⟨"vendor2", []⟩ : DllBundleConfig),
        some (⟨"vendor1", [.str "pa"]⟩ : DllBundleConfig)],
      ∃ b ∈ bundlesTwo, x = some b)
    ∧ ([some (⟨"vendor2", []⟩ : DllBundleConfig),
        some (⟨"vendor1", [.str "pa"]⟩ : DllBundleConfig)]).Nodup
    ∧ ([some (⟨"vendor2", []⟩ : DllBundleConfig),
        some (⟨"vendor1", [.str "pa"]⟩ : DllBundleConfig)]).take
          (invalidBundleNames fsNoVendor2 "d" bundlesTwo).length
        = (bundlesTwo.filter
            (fun b => bundleLooksValid fsNoVendor2 "d" b.name)).map some :=
  checkBundles_rebuild_list_shape envGood fsNoVendor2 "d" false bundlesTwo
    stateOld [some ⟨"vendor2", []⟩, some ⟨"vendor1", [.str "pa"]⟩]
    (by decide) (by rfl) (by decide)

/-! ### C7: check after save -/

theorem mem_foldl_saveStep (L : List PackageInfo) :
    ∀ (init : BundleState) (kv : String × StateEntry),
      kv ∈ L.foldl saveStep init → kv ∈ init ∨ ∃ p ∈ L, p.name = kv.1 := by
  induction L with
  | nil => exact fun init kv h => Or.inl h
  | cons p L ih =>
    intro init kv h
    rcases ih (saveStep init p) kv h with h' | ⟨q, hq, hqk⟩
    · rcases mem_stateSet init p.name _ kv h' with h'' | h''
      · exact Or.inr ⟨p, List.mem_cons_self p L, (congrArg Prod.fst h'').symm⟩
      · exact Or.inl h''
    · exact Or.inr ⟨q, List.mem_cons_of_mem _ hq, hqk⟩

theorem foldl_analyzeStep_all_current (L : List PackageInfo) :
    ∀ (res : AnalyzedState) (bs : BundleState) (hist : List String),
      (∀ p ∈ L, p.error = none) →
      (∀ p ∈ L, (∃ e, stateLookup bs p.name = some e ∧ e.version = p.version)
        ∨ p.name ∈ hist) →
      (∀ kv ∈ bs, ∃ p ∈ L, p.name = kv.1) →
      (stateKeys bs).Nodup →
      (∀ n ∈ hist, stateLookup bs n = none) →
      (L.foldl analyzeStep (res, bs, hist)).1.added = res.added
      ∧ (L.foldl analyzeStep (res, bs, hist)).1.changed = res.changed
      ∧ (L.foldl analyzeStep (res, bs, hist)).1.error = res.error
      ∧ (L.foldl analyzeStep (res, bs, hist)).2.1 = [] := by
  induction L with
  | nil =>
    intro res bs hist _ _ hc _ _
    refine ⟨rfl, rfl, rfl, ?_⟩
    cases bs with
    | nil => rfl
    | cons kv rest =>
      obtain ⟨p, hp, -⟩ := hc kv (List.mem_cons_self kv rest)
      simp at hp
  | cons p L ih =>
    intro res bs hist ha hb hc d he
    have hperr : p.error = none := ha p (List.mem_cons_self p L)
    rcases hb p (List.mem_cons_self p L) with ⟨e, hl, hv⟩ | hh
    · rw [List.foldl_cons, analyzeStep_current_eq res bs hist p e hperr hl hv]
      apply ih
      · exact fun q hq => ha q (List.mem_cons_of_mem _ hq)
      · intro q hq
        by_cases hqp : q.name = p.name
        · refine Or.inr ?_
          rw [hqp]
          exact List.mem_append_right _ (List.mem_singleton_self _)
        · rcases hb q (List.mem_cons_of_mem _ hq) with ⟨e', hl', hv'⟩ | hh'
          · refine Or.inl ⟨e', ?_, hv'⟩
            rw [stateLookup_stateDel_ne bs p.name q.name hqp]
            exact hl'
          · exact Or.inr (List.mem_append_left _ hh')
      · intro kv hkv
        have hkvbs : kv ∈ bs := (stateDel_sublist bs p.name).subset hkv
        obtain ⟨q, hq, hqk⟩ := hc kv hkvbs
        rcases List.mem_cons.mp hq with h' | hq'
        · exfalso
          have hkv1 : kv.1 = p.name := by rw [← hqk, h']
          have hmem : kv.1 ∈ stateKeys (stateDel bs p.name) :=
            List.mem_map_of_mem Prod.fst hkv
          rw [hkv1] at hmem
          have hnone := stateLookup_stateDel_self bs p.name d
          rw [stateLookup_eq_none_iff] at hnone
          exact hnone hmem
        · exact ⟨q, hq', hqk⟩
      · exact (stateKeys_stateDel_sublist bs p.name).nodup d
      · intro n hn
        rcases List.mem_append.mp hn with hn | hn
        · exact stateLookup_stateDel_none bs p.name n (he n hn)
        · have hnp : n = p.name := by simpa using hn
          subst hnp
          exact stateLookup_stateDel_self bs p.name d
    · have hl : stateLookup bs p.name = none := he p.name hh
      rw [List.foldl_cons, analyzeStep_skip_eq res bs hist p hperr hl hh]
      apply ih
      · exact fun q hq => ha q (List.mem_cons_of_mem _ hq)
      · exact fun q hq => hb q (List.mem_cons_of_mem _ hq)
      · intro kv hkv
        obtain ⟨q, hq, hqk⟩ := hc kv hkv
        rcases List.mem_cons.mp hq with h' | hq'
        · exfalso
          have hkv1 : kv.1 = p.name := by rw [← hqk, h']
          have hmem : kv.1 ∈ stateKeys bs := List.mem_map_of_mem Prod.fst hkv
          rw [hkv1] at hmem
          rw [stateLookup_eq_none_iff] at hl
          exact hl hmem
        · exact ⟨q, hq', hqk⟩
      · exact d
      · exact he

/-- C7 counterexample: the unresolvable package `pkgX` errors on every
check and `save` never persists it, so after check → save with the
configuration unchanged and every artifact file present, the second
(permissive) check still returns its bundle — the rebuild list is not
empty, contradicting the claim for this configuration. -/
theorem checkBundles_after_save_not_empty :
    checkBundles envMissing fsAll "d" true bundlesPkgX
        (buildBundleState (getMetadata envMissing bundlesPkgX))
      = .ok [some ⟨"vendor", [.str "pkgX"]⟩]
    ∧ checkBundles envMissing fsAll "d" true bundlesPkgX
        (buildBundleState (getMetadata envMissing bundlesPkgX))
      ≠ .ok [] := by
  refine ⟨rfl, fun h => ?_⟩
  have h2 : (Except.ok [some (⟨"vendor", [.str "pkgX"]⟩ : DllBundleConfig)]
      : Except String (List (Option DllBundleConfig))) = .ok [] := by
    rw [← h]
    rfl
  exact List.noConfusion (Except.ok.inj h2)

/-- C7 (amended): check-after-save is idempotent provided every package
resolves without error and descriptors sharing a declared name resolve to
the same version: saving the freshly collected metadata and re-running
the check with the configuration unchanged and all bundle artifacts
present yields an empty rebuild list.  (A package that errors is never
persisted and re-flags its bundle on every check, and duplicate names
with different versions leave a changed classification, so both
exclusions are necessary.) -/
theorem checkBundles_after_save_empty (env : String → ResolveOutcome)
    (fsE : String → Bool) (dllDir : String) (ign : Bool)
    (bundles : List DllBundleConfig)
    (hnoerr : ∀ p ∈ getMetadata env bundles, p.error = none)
    (hconsist : ∀ p ∈ getMetadata env bundles, ∀ q ∈ getMetadata env bundles,
      p.name = q.name → p.version = q.version)
    (hfs : ∀ b ∈ bundles, bundleLooksValid fsE dllDir b.name = false) :
    checkBundles env fsE dllDir ign bundles
      (buildBundleState (getMetadata env bundles)) = .ok [] := by
  have hBinit : ∀ p ∈ getMetadata env bundles,
      (∃ e, stateLookup (buildBundleState (getMetadata env bundles)) p.name
          = some e ∧ e.version = p.version)
        ∨ p.name ∈ ([] : List String) := by
    intro p hp
    left
    have hk : p.name ∈ stateKeys (buildBundleState (getMetadata env bundles)) := by
      rw [buildBundleState_eq_foldl]
      refine mem_stateKeys_foldl_saveStep _ [] p.name (Or.inr ⟨p, ?_, rfl⟩)
      exact List.mem_filter.mpr ⟨hp, by simp [hnoerr p hp]⟩
    rw [← stateLookup_isSome_iff] at hk
    obtain ⟨e, he⟩ := Option.isSome_iff_exists.mp hk
    refine ⟨e, he, ?_⟩
    rw [buildBundleState_eq_foldl] at he
    rcases stateLookup_foldl_saveStep _ [] p.name e he with h' | ⟨q, hq, hqn, hqe⟩
    · exact absurd h' (by simp [stateLookup])
    · rw [hqe]
      exact hconsist q (List.mem_filter.mp hq).1 p hp hqn
  have hCinit : ∀ kv ∈ buildBundleState (getMetadata env bundles),
      ∃ p ∈ getMetadata env bundles, p.name = kv.1 := by
    intro kv hkv
    rw [buildBundleState_eq_foldl] at hkv
    rcases mem_foldl_saveStep _ [] kv hkv with h' | ⟨p, hp, hpn⟩
    · simp at h'
    · exact ⟨p, (List.mem_filter.mp hp).1, hpn⟩
  obtain ⟨hadd, hchg, herrl, hbs⟩ :=
    foldl_analyzeStep_all_current (getMetadata env bundles) emptyAnalyzed
      (buildBundleState (getMetadata env bundles)) [] hnoerr hBinit hCinit
      (buildBundleState_keys_nodup (getMetadata env bundles)) (by simp)
  have hAerr : (analyzeState (getMetadata env bundles)
      (buildBundleState (getMetadata env bundles))).error = [] := by
    rw [analyzeState_error_proj, herrl]
    rfl
  have hAadd : (analyzeState (getMetadata env bundles)
      (buildBundleState (getMetadata env bundles))).added = [] := by
    rw [analyzeState_added_proj, hadd]
    rfl
  have hAchg : (analyzeState (getMetadata env bundles)
      (buildBundleState (getMetadata env bundles))).changed = [] := by
    rw [analyzeState_changed_proj, hchg]
    rfl
  have hArem : (analyzeState (getMetadata env bundles)
      (buildBundleState (getMetadata env bundles))).removed = [] := by
    rw [analyzeState_removed_proj, hbs]
    rfl
  have hinv : invalidBundleNames fsE dllDir bundles = [] := by
    unfold invalidBundleNames
    rw [List.filter_eq_nil_iff]
    intro n hn
    rw [List.mem_map] at hn
    obtain ⟨b, hb, rfl⟩ := hn
    simp [hfs b hb]
  unfold checkBundles
  rw [if_neg (by simp [hAerr])]
  rw [hAadd, hAchg, hArem, hAerr, hinv]
  rfl

/-- C7 witness: the amended idempotence evaluated on the concrete
configuration with the single resolvable package `pa`. -/
theorem checkBundles_after_save_empty_witness :
    checkBundles envGood fsAll "d" false bundlesPa
      (buildBundleState (getMetadata envGood bundlesPa)) = .ok [] :=
  checkBundles_after_save_empty envGood fsAll "d" false bundlesPa
    (by decide) (by decide) (by decide)

end DllBundles
